import Mathlib

/-!
Shallow embedding of `src/mx2md.py`, the incremental Memorix-backup-to-Markdown
converter, together with proofs about its reconciliation algorithm.

Modelling conventions:
* Python strings are `String`; `str.lower()` is `String.toLower`.
* Timestamps (`createdMillis / 1000`, `lastModifiedMillis / 1000`) are `ℚ`
  (exact rationals; only order and equality of timestamps matter to the code).
* The destination folder tree is modelled as an association list from the full
  path of each `.md` note file to its metadata (content, access time,
  modification time).  `os.path.exists` is membership of the exact path.
* The persisted sync database is the list of its note entries in file order;
  the code scans this list linearly and acts on the first matching entry.
* Fallible operations (indexing an empty section list, the final percentage
  computation) return `Option`, with `none` standing for the raised exception.
-/

namespace Mx2md

/-- The model of `str.lower()`: character-wise lower-casing.  This is
    `String.toLower`, written directly on the character list so that it can be
    evaluated by kernel reduction. -/
def lower (s : String) : String := ⟨s.data.map Char.toLower⟩

/-- The model of `os.path.join` on the two-argument calls the program makes. -/
def pathJoin (a b : String) : String := a ++ "/" ++ b

/-- The model of `os.path.dirname`: everything before the final separator. -/
def dirname (p : String) : String :=
  String.intercalate "/" ((p.splitOn "/").dropLast)

/-- One element of a raw note record field `sections`
    (fields `id`, `checkable`, `checked`, `text`). -/
structure NoteSection where
  sid : String
  checkable : Bool
  checked : Bool
  text : String
deriving DecidableEq, Repr

/-- The function `Note.determine_ctime`: `createdMillis / 1000` as a real number. -/
def determineCtime (createdMillis : Nat) : ℚ := (createdMillis : ℚ) / 1000

/-- The function `Note.determine_mtime`: `lastModifiedMillis / 1000`. -/
def determineMtime (lastModifiedMillis : Nat) : ℚ := (lastModifiedMillis : ℚ) / 1000

/-- The attachments block built at the top of `Note.determine_content`:
    empty when the note has no attachments, otherwise a header line followed
    by one embed reference per attachment. -/
def attachmentsBlock (atts : List String) : String :=
  if atts.isEmpty then ""
  else atts.foldl (fun acc item => acc ++ "\n![[" ++ item ++ "]]\n")
    ("\n\nAttachments (" ++ toString atts.length ++ "):")

/-- The line rendered for one checklist section inside `Note.determine_content`. -/
def checklistLine (s : NoteSection) : String :=
  (if s.checked then "- [x] " else "- [ ] ") ++ s.text ++ "\n"

/-- The function `Note.determine_content`.  The code indexes `sections[0]`,
    which raises on an empty list, modelled by `none`.  Single-section notes
    (first section not checkable) render their text verbatim; checklist notes
    render one checklist line per section, in order; the attachments block is
    appended in both cases. -/
def determineContent (sections : List NoteSection) (atts : List String) :
    Option String :=
  match sections with
  | [] => none
  | s0 :: _ =>
    let attachments := attachmentsBlock atts
    if s0.checkable = false then
      some (s0.text ++ attachments)
    else
      some ((sections.foldl (fun acc s => acc ++ checklistLine s) "") ++ attachments)

/-- The candidate tuple the main loop works with for one note: the fields of
    the Python `Note` object that the reconciler reads.  `hash` is the value of
    `Note.generate_hash` (the md5 hex digest of the serialized entry), `ctime`
    and `mtime` the values of `determine_ctime` / `determine_mtime`, `content`
    the rendered body, and `saveDir` / `fileName` the values of
    `determine_save_dir` / `determine_file_name`. -/
structure Note where
  hash : String
  ctime : ℚ
  mtime : ℚ
  content : String
  saveDir : String
  fileName : String
deriving DecidableEq, Repr

/-- Metadata of one file on disk: its content, access time and modification
    time, in that order. -/
structure FileMeta where
  content : String
  atime : ℚ
  mtime : ℚ
deriving DecidableEq, Repr

/-- The destination folder tree, restricted to the `.md` note files the
    program reads and writes: an association list from full path to metadata. -/
abbrev FS := List (String × FileMeta)

/-- The model of `os.path.exists` on the note-file tree. -/
def fsExists : FS → String → Bool
  | [], _ => false
  | f :: rest, p => if f.1 = p then true else fsExists rest p

/-- First metadata stored for a path. -/
def fsGet : FS → String → Option FileMeta
  | [], _ => none
  | f :: rest, p => if f.1 = p then some f.2 else fsGet rest p

/-- The model of `os.remove`. -/
def fsRemove : FS → String → FS
  | [], _ => []
  | f :: rest, p => if f.1 = p then fsRemove rest p else f :: fsRemove rest p

/-- The model of `open(path, "w"); write(content)`: the file now exists with
    the given content.  Its timestamps are immediately overwritten by the
    `os.utime` call that follows in `write_to_disk`, so they are left at `0`
    here. -/
def fsWriteContent (fs : FS) (p : String) (content : String) : FS :=
  (p, { content := content, atime := 0, mtime := 0 }) :: fsRemove fs p

/-- The model of `os.utime(path, times)`: per the Python library, `times` is
    the pair `(atime, mtime)` — it sets the access time to the first component
    and the modification time to the second. -/
def osUtime (fs : FS) (p : String) (times : ℚ × ℚ) : FS :=
  fs.map (fun f => if f.1 = p then (f.1, { f.2 with atime := times.1, mtime := times.2 }) else f)

/-- The function `set_original_timestamp(path, mtime, ctime)`, which calls
    `os.utime(path, (mtime, ctime))`. -/
def setOriginalTimestamp (fs : FS) (p : String) (mtime ctime : ℚ) : FS :=
  osUtime fs p (mtime, ctime)

/-- The method `Note.write_to_disk`: write the rendered content to `path`,
    then call `set_original_timestamp(path, self.mtime, self.ctime)`. -/
def Note.writeToDisk (n : Note) (p : String) (fs : FS) : FS :=
  setOriginalTimestamp (fsWriteContent fs p n.content) p n.mtime n.ctime

/-- One record of the persisted sync database:
    `{"id": ..., "path": ..., "mtime": ...}`. -/
structure LedgerEntry where
  id : String
  path : String
  mtime : ℚ
deriving DecidableEq, Repr

/-- The whole persisted document of `sync_db.json`:
    `{"notes": [...], "attachments": [...]}`. -/
structure LedgerData where
  notes : List LedgerEntry
  attachments : List String
deriving DecidableEq, Repr

/-- The method `SyncDB.read`: the persisted document when the file exists
    (`some data`), and the fresh empty document when it does not (`none`). -/
def readSyncDB (persisted : Option LedgerData) : LedgerData :=
  match persisted with
  | some d => d
  | none => { notes := [], attachments := [] }

/-- The linear scan `for entry in sync_db.notes: if entry["id"] == note.hash`,
    which acts on the first matching entry and then breaks. -/
def lookupEntry : List LedgerEntry → String → Option LedgerEntry
  | [], _ => none
  | e :: rest, h => if e.id = h then some e else lookupEntry rest h

/-- The in-place mutation `entry["mtime"] = note.mtime` performed on the first
    entry whose id matches. -/
def updateFirst : List LedgerEntry → String → ℚ → List LedgerEntry
  | [], _, _ => []
  | e :: rest, h, m =>
    if e.id = h then { e with mtime := m } :: rest else e :: updateFirst rest h m

/-- The filename candidate the collision loop examines: the original
    `"<file_name>.md"` for `k = 0` and `"<file_name> <k>.md"` for the retry
    with counter value `k ≥ 1`. -/
def noteCandidate (saveDir fileName : String) (k : Nat) : String :=
  if k = 0 then pathJoin saveDir (fileName ++ ".md")
  else pathJoin saveDir (fileName ++ " " ++ toString k ++ ".md")

/-- The `while True` collision loop, with explicit fuel.  Candidate `i` is
    tested against the (lower-cased) paths already allocated this run; on a
    hit the counter advances, otherwise the candidate wins.  The program gives
    the loop unbounded fuel; `allocatePath` supplies `filepaths.length + 1`
    steps, which reaches the first free candidate whenever the candidates are
    pairwise distinct. -/
def allocLoop (saveDir fileName : String) (filepaths : List String) :
    Nat → Nat → String
  | 0, i => noteCandidate saveDir fileName i
  | fuel + 1, i =>
    if lower (noteCandidate saveDir fileName i) ∈ filepaths then
      allocLoop saveDir fileName filepaths fuel (i + 1)
    else
      noteCandidate saveDir fileName i

/-- Path allocation for one note: the first free candidate, tested
    case-insensitively against the paths already allocated this run. -/
def allocatePath (saveDir fileName : String) (filepaths : List String) : String :=
  allocLoop saveDir fileName filepaths (filepaths.length + 1) 0

/-- The running state of the main loop: the in-memory sync database, the
    folder tree, the `filepaths` list of (lower-cased) paths allocated so far
    this run, and the log of file writes performed so far. -/
structure StepState where
  db : List LedgerEntry
  fs : FS
  filepaths : List String
  writes : List String
deriving Repr

/-- The body of the main `for pos, note in enumerate(current_notes)` loop for
    one note: allocate a collision-free path, register it in `filepaths`, then
    either update (entry found and stale-or-missing), skip (entry found and
    fresh), or create (no entry). -/
def processNote (n : Note) (st : StepState) : StepState :=
  let fullPath := allocatePath n.saveDir n.fileName st.filepaths
  let fps := st.filepaths ++ [lower fullPath]
  match lookupEntry st.db n.hash with
  | some e =>
    if e.mtime < n.mtime ∨ fsExists st.fs fullPath = false then
      { db := updateFirst st.db n.hash n.mtime
        fs := n.writeToDisk fullPath st.fs
        filepaths := fps
        writes := st.writes ++ [fullPath] }
    else
      { st with filepaths := fps }
  | none =>
    { db := st.db ++ [{ id := n.hash, path := fullPath, mtime := n.mtime }]
      fs := n.writeToDisk fullPath st.fs
      filepaths := fps
      writes := st.writes ++ [fullPath] }

/-- The whole main loop over the current notes, in archive order. -/
def processAll : List Note → StepState → StepState
  | [], st => st
  | n :: rest, st => processAll rest (processNote n st)

/-- The outcome of the deletion sweep: the folder tree after it, the files it
    removed, and the folders it removed. -/
structure SweepResult where
  fs : FS
  deletedFiles : List String
  deletedFolders : List String
deriving Repr

/-- One iteration of the deletion sweep per file found on disk: a file whose
    lower-cased path is not among the allocated `filepaths` is an orphan and —
    unless safe mode is on — is removed; if its parent folder then holds no
    remaining note file, the folder is removed too. -/
def sweepStep (safeMode : Bool) (filepaths : List String) (acc : SweepResult)
    (p : String) : SweepResult :=
  if lower p ∉ filepaths ∧ safeMode = false then
    let fs' := fsRemove acc.fs p
    if fs'.all (fun f => decide (dirname f.1 ≠ dirname p)) then
      { fs := fs'
        deletedFiles := acc.deletedFiles ++ [p]
        deletedFolders := acc.deletedFolders ++ [dirname p] }
    else
      { fs := fs'
        deletedFiles := acc.deletedFiles ++ [p]
        deletedFolders := acc.deletedFolders }
  else
    acc

/-- The deletion sweep: `list_files_recursively` snapshots every note file
    under the destination first, then each is examined in turn. -/
def sweepRun (safeMode : Bool) (filepaths : List String) (fs : FS) : SweepResult :=
  (fs.map Prod.fst).foldl (sweepStep safeMode filepaths) ⟨fs, [], []⟩

/-- The validity test of the database cleanup: an entry is kept when its id is
    the hash of some note of the current run. -/
def entryValid : List Note → LedgerEntry → Bool
  | [], _ => false
  | n :: rest, e => if e.id = n.hash then true else entryValid rest e

/-- The list `invalid_indexes` of the database cleanup: the positions, in
    ascending order, of the entries valid for no current note. -/
def invalidIdxs (notes : List Note) : List LedgerEntry → List Nat
  | [] => []
  | e :: rest =>
    if entryValid notes e then (invalidIdxs notes rest).map (· + 1)
    else 0 :: (invalidIdxs notes rest).map (· + 1)

/-- The method `SyncDB.pop_note`, i.e. `list.pop(position)`. -/
def popNote : List LedgerEntry → Nat → List LedgerEntry
  | [], _ => []
  | _ :: rest, 0 => rest
  | e :: rest, k + 1 => e :: popNote rest k

/-- Popping a list of positions one after another. -/
def popAll (db : List LedgerEntry) (idxs : List Nat) : List LedgerEntry :=
  idxs.foldl popNote db

/-- The database cleanup: collect the invalid positions, sort them in
    descending order (the ascending enumeration reversed), and pop each. -/
def pruneDB (notes : List Note) (db : List LedgerEntry) : List LedgerEntry :=
  popAll db ((invalidIdxs notes db).reverse)

/-- The outcome of one whole run: the sync database as persisted at the end,
    the folder tree, the log of note-file writes, and the deletions performed
    by the sweep. -/
structure RunResult where
  db : List LedgerEntry
  fs : FS
  writes : List String
  deletedFiles : List String
  deletedFolders : List String
deriving Repr

/-- One whole run of the reconciler over the already-filtered current notes:
    the main loop, then the deletion sweep, then the database cleanup.  The
    `filepaths` list starts empty each run. -/
def run (safeMode : Bool) (notes : List Note) (db0 : List LedgerEntry)
    (fs0 : FS) : RunResult :=
  let st := processAll notes { db := db0, fs := fs0, filepaths := [], writes := [] }
  let sw := sweepRun safeMode st.filepaths st.fs
  { db := pruneDB notes st.db
    fs := sw.fs
    writes := st.writes
    deletedFiles := sw.deletedFiles
    deletedFolders := sw.deletedFolders }

/-- The on-disk content of `sync_db.json` after `k` completed steps of
    `SyncDB.write`: the method opens the file with mode `"w"`, which truncates
    it, and then writes the serialized document in one call.  Step 0 is before
    the open, step 1 after the truncating open, step 2 after the write. -/
def writeDiskAfter (old newContent : String) (stepsDone : Nat) : String :=
  if stepsDone = 0 then old
  else if stepsDone = 1 then ""
  else newContent

/-- The final percentage computation of the run summary,
    `(total_notes / mxdb.notes_count) * 100`.  Python division raises
    `ZeroDivisionError` when `notes_count` is zero, modelled by `none`. -/
def runSummaryPercent (totalNotes notesCount : Nat) : Option ℚ :=
  if notesCount = 0 then none
  else some ((totalNotes : ℚ) / (notesCount : ℚ) * 100)

/-- The tail of the main program: the run itself (which ends by persisting the
    database), followed by the summary.  With every ignore flag off,
    `total_notes` is `new + updated + unchanged`, and each processed note
    increments exactly one of those three counters, so `total_notes` is the
    number of current notes; `archiveCount` is `mxdb.notes_count`, the number
    of entries of the backup archive. -/
def mainRun (safeMode : Bool) (archiveCount : Nat) (notes : List Note)
    (db0 : List LedgerEntry) (fs0 : FS) : RunResult × Option ℚ :=
  let r := run safeMode notes db0 fs0
  (r, runSummaryPercent notes.length archiveCount)

/-- The sequence of full paths the main loop allocates for the given notes, in
    order, starting from the given list of already-allocated (lower-cased)
    paths.  Allocation reads nothing but the note and that list, so this is a
    function of the notes alone once the start list is fixed. -/
def allocPaths : List Note → List String → List String
  | [], _ => []
  | n :: ns, fps =>
    let p := allocatePath n.saveDir n.fileName fps
    p :: allocPaths ns (fps ++ [lower p])

/-- A note is settled in a database when the first entry carrying its hash is
    at least as recent as the note: on such an entry the update test
    `entry mtime < note mtime` fails. -/
def Settled (db : List LedgerEntry) (n : Note) : Prop :=
  ∃ e, lookupEntry db n.hash = some e ∧ ¬ e.mtime < n.mtime

/-- Notes whose hashes agree also agree on their modification time.  The hash
    of a note is the md5 digest of its entire serialized archive record, so
    two notes share a hash exactly when they are duplicates of one record —
    barring an md5 collision, which sits below this model. -/
def HashMtimeConsistent (notes : List Note) : Prop :=
  ∀ a ∈ notes, ∀ b ∈ notes, a.hash = b.hash → a.mtime = b.mtime

/-- The first `bound` filename candidates for one stem are pairwise distinct
    even after lower-casing.  This always holds — the candidates differ in
    their decimal counter, which lower-casing fixes pointwise — and is
    decidable at each concrete bound. -/
def candDistinct (saveDir fileName : String) (bound : Nat) : Prop :=
  ∀ i < bound, ∀ j < bound,
    lower (noteCandidate saveDir fileName i) = lower (noteCandidate saveDir fileName j) →
      i = j

/-! ### Folder-tree lemmas -/

theorem fsExists_fsRemove_ne (fs : FS) (p q : String) (h : q ≠ p) :
    fsExists (fsRemove fs p) q = fsExists fs q := by
  induction fs with
  | nil => rfl
  | cons f rest ih =>
    by_cases hf : f.1 = p
    · have hq : ¬ f.1 = q := by rw [hf]; exact fun hc => h hc.symm
      simp only [fsRemove, if_pos hf, fsExists, if_neg hq]
      exact ih
    · by_cases hfq : f.1 = q
      · simp only [fsRemove, if_neg hf, fsExists, if_pos hfq]
      · simp only [fsRemove, if_neg hf, fsExists, if_neg hfq]
        exact ih

theorem fsExists_map_fst (fs : FS) (g : String × FileMeta → String × FileMeta)
    (hg : ∀ f, (g f).1 = f.1) (q : String) :
    fsExists (fs.map g) q = fsExists fs q := by
  induction fs with
  | nil => rfl
  | cons f rest ih =>
    simp only [List.map_cons, fsExists, hg f]
    by_cases hfq : f.1 = q
    · simp only [if_pos hfq]
    · simp only [if_neg hfq]
      exact ih

theorem fsExists_osUtime (fs : FS) (p q : String) (t : ℚ × ℚ) :
    fsExists (osUtime fs p t) q = fsExists fs q := by
  unfold osUtime
  exact fsExists_map_fst fs _ (fun f => by split <;> rfl) q

theorem fsExists_fsWriteContent_self (fs : FS) (p c : String) :
    fsExists (fsWriteContent fs p c) p = true := by
  simp [fsWriteContent, fsExists]

theorem fsExists_fsWriteContent_mono (fs : FS) (p c q : String)
    (h : fsExists fs q = true) : fsExists (fsWriteContent fs p c) q = true := by
  by_cases hq : q = p
  · subst hq; exact fsExists_fsWriteContent_self fs q c
  · have hp : ¬ p = q := fun hc => hq hc.symm
    simp only [fsWriteContent, fsExists, if_neg hp]
    rw [fsExists_fsRemove_ne fs p q hq]
    exact h

theorem fsExists_writeToDisk_self (n : Note) (p : String) (fs : FS) :
    fsExists (n.writeToDisk p fs) p = true := by
  simp only [Note.writeToDisk, setOriginalTimestamp, fsExists_osUtime]
  exact fsExists_fsWriteContent_self fs p n.content

theorem fsExists_writeToDisk_mono (n : Note) (p q : String) (fs : FS)
    (h : fsExists fs q = true) : fsExists (n.writeToDisk p fs) q = true := by
  simp only [Note.writeToDisk, setOriginalTimestamp, fsExists_osUtime]
  exact fsExists_fsWriteContent_mono fs p n.content q h

theorem fsGet_writeToDisk (n : Note) (p : String) (fs : FS) :
    fsGet (n.writeToDisk p fs) p =
      some { content := n.content, atime := n.mtime, mtime := n.ctime } := by
  simp [Note.writeToDisk, setOriginalTimestamp, osUtime, fsWriteContent, fsGet]

/-! ### Sync-database list lemmas -/

theorem lookupEntry_append_some {db1 : List LedgerEntry} (db2 : List LedgerEntry)
    {h : String} {e : LedgerEntry} (hl : lookupEntry db1 h = some e) :
    lookupEntry (db1 ++ db2) h = some e := by
  induction db1 with
  | nil => simp [lookupEntry] at hl
  | cons x rest ih =>
    by_cases hx : x.id = h
    · simp only [lookupEntry, if_pos hx] at hl
      simp only [List.cons_append, lookupEntry, if_pos hx, hl]
    · simp only [lookupEntry, if_neg hx] at hl
      simp only [List.cons_append, lookupEntry, if_neg hx]
      exact ih hl

theorem lookupEntry_append_none {db1 : List LedgerEntry} (db2 : List LedgerEntry)
    {h : String} (hl : lookupEntry db1 h = none) :
    lookupEntry (db1 ++ db2) h = lookupEntry db2 h := by
  induction db1 with
  | nil => rfl
  | cons x rest ih =>
    by_cases hx : x.id = h
    · simp only [lookupEntry, if_pos hx] at hl
      exact Option.noConfusion hl
    · simp only [lookupEntry, if_neg hx] at hl
      simp only [List.cons_append, lookupEntry, if_neg hx]
      exact ih hl

theorem lookupEntry_updateFirst_self {db : List LedgerEntry} {h : String}
    (m : ℚ) {e : LedgerEntry} (hl : lookupEntry db h = some e) :
    lookupEntry (updateFirst db h m) h = some { e with mtime := m } := by
  induction db with
  | nil => simp [lookupEntry] at hl
  | cons x rest ih =>
    by_cases hx : x.id = h
    · simp only [lookupEntry, if_pos hx, Option.some.injEq] at hl
      subst hl
      simp [updateFirst, if_pos hx, lookupEntry, hx]
    · simp only [lookupEntry, if_neg hx] at hl
      simp only [updateFirst, if_neg hx, lookupEntry, if_neg hx]
      exact ih hl

theorem lookupEntry_updateFirst_ne {db : List LedgerEntry} {h h' : String}
    (m : ℚ) (hne : h ≠ h') :
    lookupEntry (updateFirst db h' m) h = lookupEntry db h := by
  induction db with
  | nil => rfl
  | cons x rest ih =>
    by_cases hx : x.id = h'
    · have hxh : ¬ x.id = h := by rw [hx]; exact fun hc => hne hc.symm
      simp only [updateFirst, if_pos hx, lookupEntry]
      rw [if_neg (by simpa using hxh), if_neg hxh]
    · by_cases hxh : x.id = h
      · simp only [updateFirst, if_neg hx, lookupEntry, if_pos hxh]
      · simp only [updateFirst, if_neg hx, lookupEntry, if_neg hxh]
        exact ih

theorem updateFirst_idPath (db : List LedgerEntry) (h : String) (m : ℚ) :
    (updateFirst db h m).map (fun e => (e.id, e.path)) =
      db.map (fun e => (e.id, e.path)) := by
  induction db with
  | nil => rfl
  | cons x rest ih =>
    by_cases hx : x.id = h
    · simp [updateFirst, if_pos hx]
    · simp [updateFirst, if_neg hx, ih]

/-! ### Database-cleanup lemmas -/

theorem popAll_append (db : List LedgerEntry) (l1 l2 : List Nat) :
    popAll db (l1 ++ l2) = popAll (popAll db l1) l2 := by
  simp [popAll, List.foldl_append]

theorem popAll_map_succ (e : LedgerEntry) (db : List LedgerEntry) (idxs : List Nat) :
    popAll (e :: db) (idxs.map (· + 1)) = e :: popAll db idxs := by
  induction idxs generalizing db with
  | nil => rfl
  | cons i rest ih =>
    have hpop : popNote (e :: db) (i + 1) = e :: popNote db i := rfl
    simp only [List.map_cons, popAll, List.foldl_cons, hpop]
    exact ih (popNote db i)

theorem entryValid_of_mem {notes : List Note} {n : Note} (hn : n ∈ notes)
    {e : LedgerEntry} (he : e.id = n.hash) : entryValid notes e = true := by
  induction notes with
  | nil => cases hn
  | cons m rest ih =>
    by_cases hm : e.id = m.hash
    · simp [entryValid, hm]
    · simp only [entryValid, if_neg hm]
      rcases List.mem_cons.mp hn with h1 | h2
      · exact absurd (h1 ▸ he) hm
      · exact ih h2

theorem pruneDB_eq_filter (notes : List Note) (db : List LedgerEntry) :
    pruneDB notes db = db.filter (entryValid notes) := by
  induction db with
  | nil => rfl
  | cons e rest ih =>
    by_cases hv : entryValid notes e = true
    · simp only [pruneDB, invalidIdxs, if_pos hv, ← List.map_reverse]
      rw [popAll_map_succ]
      simp only [pruneDB] at ih
      rw [ih, List.filter_cons_of_pos hv]
    · simp only [pruneDB, invalidIdxs, if_neg hv, List.reverse_cons, ← List.map_reverse]
      rw [popAll_append, popAll_map_succ]
      simp only [pruneDB] at ih
      rw [ih]
      have : popAll (e :: rest.filter (entryValid notes)) [0] =
          rest.filter (entryValid notes) := rfl
      rw [this, List.filter_cons_of_neg (by simpa using hv)]

theorem lookupEntry_filter {q : LedgerEntry → Bool} {h : String}
    (hq : ∀ e : LedgerEntry, e.id = h → q e = true) (db : List LedgerEntry) :
    lookupEntry (db.filter q) h = lookupEntry db h := by
  induction db with
  | nil => rfl
  | cons e rest ih =>
    by_cases he : e.id = h
    · rw [List.filter_cons_of_pos (hq e he)]
      simp [lookupEntry, he]
    · by_cases hqe : q e = true
      · rw [List.filter_cons_of_pos hqe]
        simp [lookupEntry, he, ih]
      · rw [List.filter_cons_of_neg (by simpa using hqe)]
        simp [lookupEntry, he, ih]

/-! ### Main-loop shape lemmas -/

theorem processNote_filepaths (n : Note) (st : StepState) :
    (processNote n st).filepaths =
      st.filepaths ++ [lower (allocatePath n.saveDir n.fileName st.filepaths)] := by
  unfold processNote
  cases hl : lookupEntry st.db n.hash with
  | none => rfl
  | some e =>
    dsimp only
    split <;> rfl

theorem fsExists_processNote_mono (n : Note) (st : StepState) (q : String)
    (h : fsExists st.fs q = true) : fsExists (processNote n st).fs q = true := by
  unfold processNote
  cases hl : lookupEntry st.db n.hash with
  | none =>
    dsimp only
    exact fsExists_writeToDisk_mono _ _ _ _ h
  | some e =>
    dsimp only
    split
    · exact fsExists_writeToDisk_mono _ _ _ _ h
    · exact h

theorem fsExists_processAll_mono (ns : List Note) (st : StepState) (q : String)
    (h : fsExists st.fs q = true) : fsExists (processAll ns st).fs q = true := by
  induction ns generalizing st with
  | nil => exact h
  | cons n rest ih => exact ih _ (fsExists_processNote_mono n st q h)

theorem fsExists_processNote_self (n : Note) (st : StepState) :
    fsExists (processNote n st).fs
      (allocatePath n.saveDir n.fileName st.filepaths) = true := by
  unfold processNote
  cases hl : lookupEntry st.db n.hash with
  | none =>
    dsimp only
    exact fsExists_writeToDisk_self _ _ _
  | some e =>
    dsimp only
    split
    · exact fsExists_writeToDisk_self _ _ _
    · next hcond =>
      cases hfs : fsExists st.fs (allocatePath n.saveDir n.fileName st.filepaths) with
      | false => exact absurd (Or.inr hfs) hcond
      | true => rfl

theorem processAll_filepaths (ns : List Note) (st : StepState) :
    (processAll ns st).filepaths =
      st.filepaths ++ (allocPaths ns st.filepaths).map lower := by
  induction ns generalizing st with
  | nil => simp [processAll, allocPaths]
  | cons n rest ih =>
    simp only [processAll, allocPaths]
    rw [ih, processNote_filepaths]
    simp [List.append_assoc]

/-! ### The settled invariant -/

theorem settled_processNote_self (n : Note) (st : StepState) :
    Settled (processNote n st).db n := by
  unfold processNote
  cases hl : lookupEntry st.db n.hash with
  | none =>
    dsimp only
    exact ⟨{ id := n.hash, path := allocatePath n.saveDir n.fileName st.filepaths,
             mtime := n.mtime },
      by rw [lookupEntry_append_none _ hl]; simp [lookupEntry], lt_irrefl n.mtime⟩
  | some e =>
    dsimp only
    split
    · exact ⟨{ e with mtime := n.mtime }, lookupEntry_updateFirst_self n.mtime hl,
        lt_irrefl n.mtime⟩
    · next hcond =>
      exact ⟨e, hl, fun hlt => hcond (Or.inl hlt)⟩

theorem settled_processNote_preserve (n m : Note) (st : StepState)
    (hmn : m.hash = n.hash → m.mtime = n.mtime) (hs : Settled st.db m) :
    Settled (processNote n st).db m := by
  obtain ⟨e, he, hlt⟩ := hs
  unfold processNote
  cases hl : lookupEntry st.db n.hash with
  | none =>
    dsimp only
    exact ⟨e, lookupEntry_append_some _ he, hlt⟩
  | some e0 =>
    dsimp only
    split
    · by_cases hh : m.hash = n.hash
      · have he' : lookupEntry st.db n.hash = some e := by rw [← hh]; exact he
        refine ⟨{ e with mtime := n.mtime }, ?_, ?_⟩
        · rw [hh]
          exact lookupEntry_updateFirst_self n.mtime he'
        · rw [hmn hh]
          exact lt_irrefl n.mtime
      · exact ⟨e, by rw [lookupEntry_updateFirst_ne _ hh]; exact he, hlt⟩
    · exact ⟨e, he, hlt⟩

theorem settled_processAll_preserve (ns : List Note) (m : Note) (st : StepState)
    (hmn : ∀ n ∈ ns, m.hash = n.hash → m.mtime = n.mtime) (hs : Settled st.db m) :
    Settled (processAll ns st).db m := by
  induction ns generalizing st with
  | nil => exact hs
  | cons n rest ih =>
    exact ih _ (fun n' hn' => hmn n' (List.mem_cons_of_mem _ hn'))
      (settled_processNote_preserve n m st (hmn n (List.mem_cons_self _ _)) hs)

theorem settled_processAll_all (ns : List Note) (st : StepState)
    (hc : ∀ a ∈ ns, ∀ b ∈ ns, a.hash = b.hash → a.mtime = b.mtime) :
    ∀ m ∈ ns, Settled (processAll ns st).db m := by
  induction ns generalizing st with
  | nil => intro m hm; cases hm
  | cons n rest ih =>
    intro m hm
    rcases List.mem_cons.mp hm with rfl | hm'
    · exact settled_processAll_preserve rest m (processNote m st)
        (fun n' hn' hh =>
          hc m (List.mem_cons_self _ _) n' (List.mem_cons_of_mem _ hn') hh)
        (settled_processNote_self m st)
    · exact ih (processNote n st)
        (fun a ha b hb =>
          hc a (List.mem_cons_of_mem _ ha) b (List.mem_cons_of_mem _ hb)) m hm'

theorem fsExists_processAll_allocPaths (ns : List Note) (st : StepState) :
    ∀ p ∈ allocPaths ns st.filepaths, fsExists (processAll ns st).fs p = true := by
  induction ns generalizing st with
  | nil => intro p hp; cases hp
  | cons n rest ih =>
    intro p hp
    simp only [allocPaths] at hp
    rcases List.mem_cons.mp hp with rfl | hp'
    · exact fsExists_processAll_mono rest _ _ (fsExists_processNote_self n st)
    · have hfp := processNote_filepaths n st
      exact ih (processNote n st) p (by rw [hfp]; exact hp')

/-! ### The no-write second pass -/

theorem processAll_noop (ns : List Note) (st : StepState)
    (hfs : ∀ p ∈ allocPaths ns st.filepaths, fsExists st.fs p = true)
    (hset : ∀ n ∈ ns, Settled st.db n) :
    processAll ns st =
      { st with filepaths := st.filepaths ++ (allocPaths ns st.filepaths).map lower } := by
  induction ns generalizing st with
  | nil => simp [processAll, allocPaths]
  | cons n rest ih =>
    obtain ⟨e, he, hlt⟩ := hset n (List.mem_cons_self _ _)
    have hp0 : fsExists st.fs (allocatePath n.saveDir n.fileName st.filepaths) = true :=
      hfs _ (by simp [allocPaths])
    have hcond : ¬ (e.mtime < n.mtime ∨
        fsExists st.fs (allocatePath n.saveDir n.fileName st.filepaths) = false) := by
      rintro (hlt2 | hb)
      · exact hlt hlt2
      · rw [hp0] at hb
        cases hb
    have hstep : processNote n st =
        { st with filepaths :=
            st.filepaths ++ [lower (allocatePath n.saveDir n.fileName st.filepaths)] } := by
      unfold processNote
      rw [he]
      dsimp only
      rw [if_neg hcond]
    have htail :
        processAll rest (processNote n st) =
          { processNote n st with filepaths :=
              (processNote n st).filepaths ++
                (allocPaths rest (processNote n st).filepaths).map lower } := by
      refine ih (processNote n st) ?_ ?_
      · intro p hp
        rw [hstep]
        dsimp only
        rw [hstep] at hp
        dsimp only at hp
        exact hfs p (by simp only [allocPaths]; exact List.mem_cons_of_mem _ hp)
      · intro n' hn'
        rw [hstep]
        exact hset n' (List.mem_cons_of_mem _ hn')
    show processAll rest (processNote n st) = _
    rw [htail, hstep]
    simp only [allocPaths, List.map_cons]
    simp [List.append_assoc]

/-! ### Deletion-sweep lemmas -/

theorem sweepStep_safe (filepaths : List String) (acc : SweepResult) (p : String) :
    sweepStep true filepaths acc p = acc := by
  unfold sweepStep
  rw [if_neg]
  rintro ⟨-, hb⟩
  cases hb

theorem foldl_sweepStep_safe (filepaths : List String) (l : List String)
    (acc : SweepResult) : l.foldl (sweepStep true filepaths) acc = acc := by
  induction l generalizing acc with
  | nil => rfl
  | cons p rest ih =>
    rw [List.foldl_cons, sweepStep_safe]
    exact ih acc

theorem sweepRun_safe (filepaths : List String) (fs : FS) :
    sweepRun true filepaths fs = { fs := fs, deletedFiles := [], deletedFolders := [] } := by
  unfold sweepRun
  exact foldl_sweepStep_safe filepaths _ _

theorem fsExists_sweepStep (safeMode : Bool) (filepaths : List String)
    (acc : SweepResult) (x p : String) (hp : lower p ∈ filepaths)
    (h : fsExists acc.fs p = true) :
    fsExists (sweepStep safeMode filepaths acc x).fs p = true := by
  unfold sweepStep
  split
  · next hcond =>
    have hxp : p ≠ x := fun hc => hcond.1 (hc ▸ hp)
    dsimp only
    split
    · dsimp only
      rw [fsExists_fsRemove_ne _ _ _ hxp]
      exact h
    · dsimp only
      rw [fsExists_fsRemove_ne _ _ _ hxp]
      exact h
  · exact h

theorem fsExists_sweepRun (safeMode : Bool) (filepaths : List String) (fs : FS)
    (p : String) (hp : lower p ∈ filepaths) (h : fsExists fs p = true) :
    fsExists (sweepRun safeMode filepaths fs).fs p = true := by
  unfold sweepRun
  generalize fs.map Prod.fst = files
  have haux : ∀ (l : List String) (acc : SweepResult), fsExists acc.fs p = true →
      fsExists (l.foldl (sweepStep safeMode filepaths) acc).fs p = true := by
    intro l
    induction l with
    | nil => intro acc hacc; exact hacc
    | cons x rest ih =>
      intro acc hacc
      exact ih _ (fsExists_sweepStep _ _ _ _ _ hp hacc)
  exact haux files _ h

/-! ### Run-level shape lemmas -/

theorem run_writes_def (s : Bool) (ns : List Note) (db0 : List LedgerEntry) (fs0 : FS) :
    (run s ns db0 fs0).writes =
      (processAll ns { db := db0, fs := fs0, filepaths := [], writes := [] }).writes := rfl

theorem run_db_def (s : Bool) (ns : List Note) (db0 : List LedgerEntry) (fs0 : FS) :
    (run s ns db0 fs0).db =
      pruneDB ns (processAll ns { db := db0, fs := fs0, filepaths := [], writes := [] }).db :=
  rfl

theorem run_fs_def (s : Bool) (ns : List Note) (db0 : List LedgerEntry) (fs0 : FS) :
    (run s ns db0 fs0).fs =
      (sweepRun s (processAll ns { db := db0, fs := fs0, filepaths := [], writes := [] }).filepaths
        (processAll ns { db := db0, fs := fs0, filepaths := [], writes := [] }).fs).fs := rfl

theorem run_deletedFiles_def (s : Bool) (ns : List Note) (db0 : List LedgerEntry) (fs0 : FS) :
    (run s ns db0 fs0).deletedFiles =
      (sweepRun s (processAll ns { db := db0, fs := fs0, filepaths := [], writes := [] }).filepaths
        (processAll ns { db := db0, fs := fs0, filepaths := [], writes := [] }).fs).deletedFiles :=
  rfl

theorem run_deletedFolders_def (s : Bool) (ns : List Note) (db0 : List LedgerEntry) (fs0 : FS) :
    (run s ns db0 fs0).deletedFolders =
      (sweepRun s (processAll ns { db := db0, fs := fs0, filepaths := [], writes := [] }).filepaths
        (processAll ns { db := db0, fs := fs0, filepaths := [], writes := [] }).fs).deletedFolders :=
  rfl

theorem settled_run_db (s : Bool) (ns : List Note) (db0 : List LedgerEntry) (fs0 : FS)
    (hc : ∀ a ∈ ns, ∀ b ∈ ns, a.hash = b.hash → a.mtime = b.mtime) :
    ∀ m ∈ ns, Settled (run s ns db0 fs0).db m := by
  intro m hm
  obtain ⟨e, he, hlt⟩ :=
    settled_processAll_all ns { db := db0, fs := fs0, filepaths := [], writes := [] } hc m hm
  refine ⟨e, ?_, hlt⟩
  rw [run_db_def, pruneDB_eq_filter]
  rw [lookupEntry_filter (fun e' he' => entryValid_of_mem hm he') _]
  exact he

theorem allocPaths_exists_run_fs (s : Bool) (ns : List Note) (db0 : List LedgerEntry)
    (fs0 : FS) : ∀ p ∈ allocPaths ns [], fsExists (run s ns db0 fs0).fs p = true := by
  intro p hp
  have hinit :
      (({ db := db0, fs := fs0, filepaths := [], writes := [] } : StepState)).filepaths = [] :=
    rfl
  have hex :
      fsExists (processAll ns { db := db0, fs := fs0, filepaths := [], writes := [] }).fs p =
        true :=
    fsExists_processAll_allocPaths ns _ p (by rw [hinit]; exact hp)
  have hmem :
      lower p ∈
        (processAll ns { db := db0, fs := fs0, filepaths := [], writes := [] }).filepaths := by
    rw [processAll_filepaths, hinit, List.nil_append]
    exact List.mem_map.mpr ⟨p, hp, rfl⟩
  rw [run_fs_def]
  exact fsExists_sweepRun s _ _ p hmem hex

/-- Claim C2: running the reconciler a second time on an unchanged archive (same
    notes in the same order, the output files and the sync database exactly as
    the first run left them) performs zero note-file writes and leaves the
    sync-database contents unchanged.  The hypothesis says that notes sharing
    a hash share a modification time; the hash is the md5 digest of the whole
    serialized record, so this only excludes md5 collisions. -/
theorem second_run_idempotent (safeMode : Bool) (notes : List Note)
    (db0 : List LedgerEntry) (fs0 : FS) (hc : HashMtimeConsistent notes) :
    (run safeMode notes (run safeMode notes db0 fs0).db
        (run safeMode notes db0 fs0).fs).writes = [] ∧
    (run safeMode notes (run safeMode notes db0 fs0).db
        (run safeMode notes db0 fs0).fs).db = (run safeMode notes db0 fs0).db := by
  have hsettled : ∀ m ∈ notes, Settled (run safeMode notes db0 fs0).db m :=
    settled_run_db safeMode notes db0 fs0 hc
  have hfiles : ∀ p ∈ allocPaths notes [], fsExists (run safeMode notes db0 fs0).fs p = true :=
    allocPaths_exists_run_fs safeMode notes db0 fs0
  have hinit2 :
      (({ db := (run safeMode notes db0 fs0).db, fs := (run safeMode notes db0 fs0).fs,
          filepaths := [], writes := [] } : StepState)).filepaths = [] := rfl
  have hnoop := processAll_noop notes
    { db := (run safeMode notes db0 fs0).db, fs := (run safeMode notes db0 fs0).fs,
      filepaths := [], writes := [] }
    (by rw [hinit2]; exact fun p hp => hfiles p hp)
    (fun n hn => hsettled n hn)
  constructor
  · rw [run_writes_def, hnoop]
  · rw [run_db_def safeMode notes (run safeMode notes db0 fs0).db
      (run safeMode notes db0 fs0).fs, hnoop]
    show pruneDB notes (run safeMode notes db0 fs0).db = (run safeMode notes db0 fs0).db
    rw [pruneDB_eq_filter]
    apply List.filter_eq_self.mpr
    intro e he
    rw [run_db_def, pruneDB_eq_filter] at he
    exact (List.mem_filter.mp he).2

/-- A one-note archive used to instantiate the idempotence theorem. -/
def w2note : Note :=
  { hash := "a", ctime := 0, mtime := 0, content := "c", saveDir := "d", fileName := "f" }

theorem second_run_idempotent_witness :
    (run false [w2note] (run false [w2note] [] []).db (run false [w2note] [] []).fs).writes
        = [] ∧
    (run false [w2note] (run false [w2note] [] []).db (run false [w2note] [] []).fs).db =
      (run false [w2note] [] []).db :=
  second_run_idempotent false [w2note] [] []
    (by unfold HashMtimeConsistent; decide)

/-- Claim C1: for a note whose identity is already in the sync database, the
    file is rewritten exactly when the stored mtime is strictly below the note
    mtime or the file at the allocated path is absent; with equal mtimes and
    the file present, nothing at all is written. -/
theorem update_written_iff (n : Note) (st : StepState) (e : LedgerEntry)
    (hl : lookupEntry st.db n.hash = some e) :
    ((processNote n st).writes =
        st.writes ++ [allocatePath n.saveDir n.fileName st.filepaths] ↔
      (e.mtime < n.mtime ∨
        fsExists st.fs (allocatePath n.saveDir n.fileName st.filepaths) = false)) ∧
    (e.mtime = n.mtime →
      fsExists st.fs (allocatePath n.saveDir n.fileName st.filepaths) = true →
      (processNote n st).fs = st.fs ∧ (processNote n st).db = st.db ∧
        (processNote n st).writes = st.writes) := by
  unfold processNote
  rw [hl]
  dsimp only
  by_cases hcond : (e.mtime < n.mtime ∨
      fsExists st.fs (allocatePath n.saveDir n.fileName st.filepaths) = false)
  · rw [if_pos hcond]
    refine ⟨⟨fun _ => hcond, fun _ => rfl⟩, ?_⟩
    intro hm hex
    rcases hcond with hlt | hmiss
    · rw [hm] at hlt
      exact absurd hlt (lt_irrefl _)
    · rw [hex] at hmiss
      cases hmiss
  · rw [if_neg hcond]
    refine ⟨⟨fun hw => ?_, fun hy => absurd hy hcond⟩, fun _ _ => ⟨rfl, rfl, rfl⟩⟩
    have := congrArg List.length hw
    simp at this

/-- The note and state used to instantiate the update test. -/
def w1note : Note :=
  { hash := "a", ctime := 1, mtime := 2, content := "c", saveDir := "d", fileName := "f" }

def w1st : StepState :=
  { db := [{ id := "a", path := "old.md", mtime := 1 }], fs := [], filepaths := [],
    writes := [] }

theorem update_written_iff_witness :
    (processNote w1note w1st).writes =
      w1st.writes ++ [allocatePath w1note.saveDir w1note.fileName w1st.filepaths] :=
  ((update_written_iff w1note w1st { id := "a", path := "old.md", mtime := 1 }
      (by decide)).1).mpr (Or.inl (by decide))

/-- The note and state used to exhibit the update-branch behavior of claim
    C4: the stored path and the allocated path differ. -/
def c4note : Note :=
  { hash := "a", ctime := 0, mtime := 1, content := "c", saveDir := "d", fileName := "f" }

def c4st : StepState :=
  { db := [{ id := "a", path := "old.md", mtime := 0 }], fs := [], filepaths := [],
    writes := [] }

/-- Claim C4, counterexample to the claim as stated: in the update branch the
    stored path of the matching entry is left at its old value even though the
    path allocated this run differs from it; only the mtime field changes. -/
theorem update_keeps_stored_path_cex :
    (processNote c4note c4st).db = [{ id := "a", path := "old.md", mtime := 1 }] ∧
    allocatePath c4note.saveDir c4note.fileName c4st.filepaths = "d/f.md" ∧
    ("old.md" : String) ≠ "d/f.md" ∧
    (processNote c4note c4st).writes = ["d/f.md"] := by decide

/-- Claim C4, amended: in the update branch the reconciler updates only the
    mtime of the first matching entry to the note mtime; every entry keeps its
    id and its stored path. -/
theorem update_replaces_only_mtime (n : Note) (st : StepState) (e : LedgerEntry)
    (hl : lookupEntry st.db n.hash = some e)
    (hcond : e.mtime < n.mtime ∨
      fsExists st.fs (allocatePath n.saveDir n.fileName st.filepaths) = false) :
    (processNote n st).db.map (fun x => (x.id, x.path)) =
      st.db.map (fun x => (x.id, x.path)) ∧
    lookupEntry (processNote n st).db n.hash = some { e with mtime := n.mtime } := by
  unfold processNote
  rw [hl]
  dsimp only
  rw [if_pos hcond]
  exact ⟨updateFirst_idPath st.db n.hash n.mtime, lookupEntry_updateFirst_self n.mtime hl⟩

theorem update_replaces_only_mtime_witness :
    lookupEntry (processNote c4note c4st).db c4note.hash =
      some { id := "a", path := "old.md", mtime := 1 } :=
  (update_replaces_only_mtime c4note c4st { id := "a", path := "old.md", mtime := 0 }
      (by decide) (Or.inl (by decide))).2

/-- Claim C6: with safe mode enabled, the deletion sweep deletes no file and no
    folder and leaves the folder tree exactly as the main loop left it, while
    the database cleanup still filters the sync database down to the entries
    whose identity is the hash of some current note. -/
theorem safe_mode_no_deletions (notes : List Note) (db0 : List LedgerEntry) (fs0 : FS) :
    (run true notes db0 fs0).deletedFiles = [] ∧
    (run true notes db0 fs0).deletedFolders = [] ∧
    (run true notes db0 fs0).fs =
      (processAll notes { db := db0, fs := fs0, filepaths := [], writes := [] }).fs ∧
    (run true notes db0 fs0).db =
      (processAll notes { db := db0, fs := fs0, filepaths := [], writes := [] }).db.filter
        (entryValid notes) := by
  refine ⟨?_, ?_, ?_, ?_⟩
  · rw [run_deletedFiles_def, sweepRun_safe]
  · rw [run_deletedFolders_def, sweepRun_safe]
  · rw [run_fs_def, sweepRun_safe]
  · rw [run_db_def, pruneDB_eq_filter]

/-- Claim C7: loading the sync database when no persisted file exists yields the
    empty document — no note entries and no attachment entries — and is a
    total operation, not a failure. -/
theorem read_missing_ledger_empty :
    (readSyncDB none).notes = [] ∧ (readSyncDB none).attachments = [] := ⟨rfl, rfl⟩

/-- Claim C10: on an archive with zero note records the run-summary percentage
    divides by the archive note count and raises a division-by-zero error
    (modelled by `none`), and it does so only after the whole run — including
    the final database write — has completed, which the first component
    (a completed `run` result) records. -/
theorem empty_archive_summary_divzero (safeMode : Bool) (db0 : List LedgerEntry)
    (fs0 : FS) :
    (mainRun safeMode 0 [] db0 fs0).1 = run safeMode [] db0 fs0 ∧
    (mainRun safeMode 0 [] db0 fs0).2 = none := ⟨rfl, rfl⟩

/-- The note used as the failing input of claim C3: created at 1000 ms and
    last modified at 2000 ms, so its ctime and mtime differ. -/
def c3note : Note :=
  { hash := "h", ctime := determineCtime 1000, mtime := determineMtime 2000,
    content := "body", saveDir := "d", fileName := "f" }

/-- Claim C3, behavior of the code at the failing input: after the note is
    written, the resulting file carries modification time `determineCtime
    1000` — the note creation time — and access time `determineMtime 2000`,
    because `set_original_timestamp` passes `(mtime, ctime)` into the
    `(atime, mtime)` slots of `os.utime`.  The two values differ, so the file
    mtime is not the note mtime, contradicting the claim. -/
theorem writeToDisk_swaps_timestamps :
    fsGet (c3note.writeToDisk "d/f.md" []) "d/f.md" =
      some { content := "body", atime := determineMtime 2000,
             mtime := determineCtime 1000 } ∧
    determineMtime 2000 ≠ determineCtime 1000 := by
  constructor
  · exact fsGet_writeToDisk c3note "d/f.md" []
  · intro hc
    rw [show determineMtime 2000 = 2 by norm_num [determineMtime],
        show determineCtime 1000 = 1 by norm_num [determineCtime]] at hc
    norm_num at hc

/-! ### Collision-loop lemmas -/

theorem allocLoop_succ_of_mem (d f : String) (fps : List String) (fuel i : Nat)
    (h : lower (noteCandidate d f i) ∈ fps) :
    allocLoop d f fps (fuel + 1) i = allocLoop d f fps fuel (i + 1) := by
  have hu : allocLoop d f fps (fuel + 1) i =
      if lower (noteCandidate d f i) ∈ fps then allocLoop d f fps fuel (i + 1)
      else noteCandidate d f i := rfl
  rw [hu, if_pos h]

theorem allocLoop_of_not_mem (d f : String) (fps : List String) (fuel i : Nat)
    (h : lower (noteCandidate d f i) ∉ fps) :
    allocLoop d f fps (fuel + 1) i = noteCandidate d f i := by
  unfold allocLoop
  rw [if_neg h]

theorem allocLoop_reaches (d f : String) (fps : List String) (k : Nat)
    (hmem : ∀ l, l < k → lower (noteCandidate d f l) ∈ fps)
    (hfree : lower (noteCandidate d f k) ∉ fps) :
    ∀ (m i : Nat), i + m = k + 1 → i ≤ k → allocLoop d f fps m i = noteCandidate d f k := by
  intro m
  induction m with
  | zero => intro i h hle; omega
  | succ m ih =>
    intro i h hle
    rcases Nat.lt_or_ge i k with hik | hik
    · rw [allocLoop_succ_of_mem d f fps m i (hmem i hik)]
      exact ih (i + 1) (by omega) (by omega)
    · have hik' : i = k := le_antisymm hle hik
      subst hik'
      exact allocLoop_of_not_mem d f fps m i hfree

theorem allocatePath_at_stage (d f : String) (k : Nat) (hd : candDistinct d f (k + 1)) :
    allocatePath d f ((List.range k).map (fun j => lower (noteCandidate d f j))) =
      noteCandidate d f k := by
  unfold allocatePath
  have hlen : ((List.range k).map (fun j => lower (noteCandidate d f j))).length = k := by
    simp
  rw [hlen]
  apply allocLoop_reaches d f _ k
  · intro l hl
    exact List.mem_map.mpr ⟨l, List.mem_range.mpr hl, rfl⟩
  · intro hc
    rcases List.mem_map.mp hc with ⟨j, hj, hjeq⟩
    have hjk : j = k := hd j (by have := List.mem_range.mp hj; omega) k (by omega) hjeq
    have := List.mem_range.mp hj
    omega
  · omega
  · omega

theorem allocPaths_same_stem_aux (d f : String) :
    ∀ (ns : List Note) (k : Nat),
      (∀ nt ∈ ns, nt.saveDir = d ∧ nt.fileName = f) →
      candDistinct d f (k + ns.length) →
      allocPaths ns ((List.range k).map (fun j => lower (noteCandidate d f j))) =
        (List.range' k ns.length).map (noteCandidate d f) := by
  intro ns
  induction ns with
  | nil => intro k _ _; rfl
  | cons n rest ih =>
    intro k hstem hd
    obtain ⟨hd1, hd2⟩ := hstem n (List.mem_cons_self _ _)
    have hlen : (n :: rest).length = rest.length + 1 := rfl
    rw [hlen] at hd
    have hk : candDistinct d f (k + 1) := fun i hi j hj heq =>
      hd i (by omega) j (by omega) heq
    simp only [allocPaths, hd1, hd2]
    rw [allocatePath_at_stage d f k hk]
    have hfps :
        (List.range k).map (fun j => lower (noteCandidate d f j)) ++
            [lower (noteCandidate d f k)] =
          (List.range (k + 1)).map (fun j => lower (noteCandidate d f j)) := by
      rw [List.range_succ, List.map_append]
      rfl
    rw [hfps]
    rw [ih (k + 1) (fun nt hnt => hstem nt (List.mem_cons_of_mem _ hnt))
      (by have h1 : k + 1 + rest.length = k + (rest.length + 1) := by omega
          rw [h1]
          exact hd)]
    rw [show (n :: rest).length = rest.length + 1 from rfl,
      List.range'_succ k rest.length 1]
    rfl

/-- Claim C5: a run of notes sharing one save directory and one filename stem is
    allocated, in processing order, the paths `stem.md`, `stem 1.md`,
    `stem 2.md`, …; the collision test is case-insensitive against the paths
    already allocated this run, and the result is a function of the note list
    alone.  The hypothesis states that the lower-cased candidates involved are
    pairwise distinct; they differ in their decimal counter, so this holds at
    every concrete instance and is dischargeable by `decide`. -/
theorem same_stem_collision_chain (d f : String) (ns : List Note)
    (hstem : ∀ nt ∈ ns, nt.saveDir = d ∧ nt.fileName = f)
    (hd : candDistinct d f ns.length) :
    allocPaths ns [] = (List.range ns.length).map (noteCandidate d f) := by
  have h0 := allocPaths_same_stem_aux d f ns 0 hstem (by simpa using hd)
  rw [show ((List.range 0).map (fun j => lower (noteCandidate d f j))) = [] from rfl]
    at h0
  rw [h0, List.range_eq_range']

/-- Three notes sharing the stem used to instantiate the collision chain. -/
def c5a : Note :=
  { hash := "h1", ctime := 0, mtime := 0, content := "", saveDir := "base",
    fileName := "stem" }

def c5b : Note :=
  { hash := "h2", ctime := 0, mtime := 0, content := "", saveDir := "base",
    fileName := "stem" }

def c5c : Note :=
  { hash := "h3", ctime := 0, mtime := 0, content := "", saveDir := "base",
    fileName := "stem" }

theorem same_stem_collision_chain_witness :
    allocPaths [c5a, c5b, c5c] [] =
      ["base/stem.md", "base/stem 1.md", "base/stem 2.md"] := by
  rw [same_stem_collision_chain "base" "stem" [c5a, c5b, c5c] (by decide)
    (by unfold candDistinct; decide)]
  rfl

/-- Claim C8, counterexample to the claim as stated: interrupted between its
    truncating open and its single write, the persist step leaves the ledger
    file in a state that is neither the old complete contents nor the new
    ones. -/
theorem ledger_write_atomic_cex :
    ¬ (writeDiskAfter "a" "b" 1 = "a" ∨ writeDiskAfter "a" "b" 1 = "b") := by
  decide

/-- Claim C8, amended: the persist step is not atomic — it truncates the file
    on open and then writes; a failure between the two steps leaves an empty
    on-disk ledger, which differs from both the old and the new contents
    whenever those are nonempty, while a completed write leaves the new
    contents. -/
theorem ledger_write_truncates (old newContent : String) (h0 : old ≠ "")
    (h1 : newContent ≠ "") :
    writeDiskAfter old newContent 1 = "" ∧
    writeDiskAfter old newContent 1 ≠ old ∧
    writeDiskAfter old newContent 1 ≠ newContent ∧
    writeDiskAfter old newContent 2 = newContent := by
  refine ⟨rfl, ?_, ?_, rfl⟩
  · intro hc
    rw [show writeDiskAfter old newContent 1 = "" from rfl] at hc
    exact h0 hc.symm
  · intro hc
    rw [show writeDiskAfter old newContent 1 = "" from rfl] at hc
    exact h1 hc.symm

theorem ledger_write_truncates_witness :
    writeDiskAfter "a" "b" 1 = "" ∧ writeDiskAfter "a" "b" 2 = "b" :=
  ⟨(ledger_write_truncates "a" "b" (by decide) (by decide)).1,
   (ledger_write_truncates "a" "b" (by decide) (by decide)).2.2.2⟩

/-! ### Checklist rendering -/

theorem stringJoin_acc (l : List String) (acc : String) :
    l.foldl (fun a b => a ++ b) acc = acc ++ String.join l := by
  induction l generalizing acc with
  | nil =>
    show acc = acc ++ String.join []
    rw [show String.join [] = "" from rfl, String.append_empty]
  | cons s rest ih =>
    show rest.foldl (fun a b => a ++ b) (acc ++ s) = acc ++ String.join (s :: rest)
    rw [ih (acc ++ s)]
    have hjo : String.join (s :: rest) = s ++ String.join rest := by
      show rest.foldl (fun a b => a ++ b) ("" ++ s) = s ++ String.join rest
      rw [String.empty_append, ih s]
    rw [hjo, String.append_assoc]

/-- Claim C9: a checklist note (first section checkable) without attachments
    renders as exactly one checklist line per section, in archive order:
    `- [x] text` for a checked section, `- [ ] text` for an unchecked one. -/
theorem checklist_renders_lines (s0 : NoteSection) (rest : List NoteSection)
    (hck : s0.checkable = true) :
    determineContent (s0 :: rest) [] =
      some (String.join ((s0 :: rest).map checklistLine)) := by
  unfold determineContent
  dsimp only
  rw [hck]
  rw [if_neg (by simp)]
  rw [show attachmentsBlock [] = "" from rfl, String.append_empty]
  have h1 := List.foldl_map checklistLine (fun (a b : String) => a ++ b) (s0 :: rest) ""
  rw [← h1, stringJoin_acc, String.empty_append]

theorem checklist_renders_lines_witness :
    determineContent
        [{ sid := "1", checkable := true, checked := true, text := "Milk" },
         { sid := "2", checkable := true, checked := false, text := "Eggs" },
         { sid := "3", checkable := true, checked := true, text := "Bread" }] [] =
      some "- [x] Milk\n- [ ] Eggs\n- [x] Bread\n" := by
  rw [checklist_renders_lines
    { sid := "1", checkable := true, checked := true, text := "Milk" }
    [{ sid := "2", checkable := true, checked := false, text := "Eggs" },
     { sid := "3", checkable := true, checked := true, text := "Bread" }] rfl]
  rfl

end Mx2md
